import Mathlib

/-!
Shallow embedding of `scrape_cesnetl.py` (CESNET-L incremental scraper).

The script is a linear pipeline: a compilation differ (which archive weeks
are unseen), a per-posting scraper with a per-URL retry loop and a
plain-text / HTML tier fallback, and an embedded-URL scraper over the
collected message texts.  Network and browser effects are modelled as
oracle functions passed to the phase functions; the collaborator modules
under `shared_scripts` (text extractor, url extractor, salary detector,
selenium fetcher) are not part of the repository snapshot and are modelled
from the specification, each marked in its doc comment.
-/

/- ## String utilities (structural recursion, kernel-evaluable) -/

/-- Does the character list start with the given pattern list? -/
def listStartsWith : List Char → List Char → Bool
  | _, [] => true
  | [], _ :: _ => false
  | c :: cs, p :: ps => c = p && listStartsWith cs ps

/-- Does the character list contain the pattern list as a contiguous sublist?
Mirrors Python's `pat in s`. -/
def listContainsSub : List Char → List Char → Bool
  | [], p => p.isEmpty
  | c :: cs, p => listStartsWith (c :: cs) p || listContainsSub cs p

/-- Python `pat in s` on strings. -/
def containsSub (s pat : String) : Bool :=
  listContainsSub s.data pat.data

/-- Python `s.lower()` (ASCII is all that occurs here). -/
def lowerStr (s : String) : String :=
  String.mk (s.data.map Char.toLower)

instance {ε α : Type} [DecidableEq ε] [DecidableEq α] : DecidableEq (Except ε α)
  | Except.error e1, Except.error e2 =>
    if h : e1 = e2 then isTrue (by rw [h]) else isFalse (by intro hc; cases hc; exact h rfl)
  | Except.error _, Except.ok _ => isFalse (by intro hc; cases hc)
  | Except.ok _, Except.error _ => isFalse (by intro hc; cases hc)
  | Except.ok a1, Except.ok a2 =>
    if h : a1 = a2 then isTrue (by rw [h]) else isFalse (by intro hc; cases hc; exact h rfl)

/- ## Anchor filters (`contains_posting`, `contains_plain_text`, `contains_html`) -/

/-- An `<a>` element as seen by BeautifulSoup: its string (None when the tag
has no single string child) and its `href` attribute (None when absent). -/
structure Anchor where
  text : Option String
  href : Option String
deriving DecidableEq, Repr

/-- `contains_posting` from the source: `text and ('faculty' in text.lower()
or 'professor' in text.lower() or 'position' in text.lower() or 'instructor'
in text.lower())`.  `None` and the empty string are falsy. -/
def contains_posting : Option String → Bool
  | Option.none => false
  | some t =>
      (t != "") &&
        (containsSub (lowerStr t) "faculty" || containsSub (lowerStr t) "professor" ||
          containsSub (lowerStr t) "position" || containsSub (lowerStr t) "instructor")

/-- `contains_plain_text` from the source: `text and ('text/plain' in text.lower())`. -/
def contains_plain_text : Option String → Bool
  | Option.none => false
  | some t => (t != "") && containsSub (lowerStr t) "text/plain"

/-- `contains_html` from the source: `text and ('text/html' in text.lower())`. -/
def contains_html : Option String → Bool
  | Option.none => false
  | some t => (t != "") && containsSub (lowerStr t) "text/html"

/-- The posting-URL extraction of lines 344/394:
`[a['href'] for a in soup.find_all('a', href=True, string=contains_posting)
 if 'https' in a['href']]`.
`find_all` keeps document order; `href=True` keeps anchors with an `href`
attribute; `string=contains_posting` filters on the anchor string. -/
def postingUrls (anchors : List Anchor) : List String :=
  ((anchors.filter (fun a => a.href.isSome && contains_posting a.text)).filterMap
      (fun a => a.href)).filter (fun h => containsSub h "https")

example : contains_posting (some "Assistant Professor of X") = true := by decide
example : contains_posting (some "click here") = false := by decide
example : postingUrls [⟨some "Lecturer Position", some "http://insecure.example"⟩] = [] := by
  decide
example :
    postingUrls [⟨some "Assistant Professor of X", some "https://x.edu/job"⟩] =
      ["https://x.edu/job"] := by decide

/- ## Leaf collaborators from `shared_scripts` (not in the snapshot) -/

/-- Tag-stripping state machine over characters: drop everything between
`<` and `>`, keep the rest. -/
def stripTags : List Char → Bool → List Char
  | [], _ => []
  | c :: rest, true => if c = '>' then stripTags rest false else stripTags rest true
  | c :: rest, false => if c = '<' then stripTags rest true else c :: stripTags rest false

/-- Modelled from the spec: `extract_text` (shared_scripts/text_extractor, not in
the snapshot) — "given raw markup, strips markup and boilerplate, returns
normalized plain text", idempotent-ish on already-plain input. -/
def extract_text (s : String) : String :=
  String.mk (stripTags s.data false)

/-- Modelled from the spec: `check_salary` (shared_scripts/salary_functions, not
in the snapshot) — a heuristic boolean classifier keyed on currency symbols and
compensation keywords. -/
def check_salary (t : String) : Bool :=
  containsSub t "$" || containsSub (lowerStr t) "salary" ||
    containsSub (lowerStr t) "compensation"

/-- Split a character list on spaces (like Python `s.split(' ')`). -/
def splitOnSpace : List Char → List (List Char)
  | [] => [[]]
  | c :: cs =>
    let r := splitOnSpace cs
    if c = ' ' then [] :: r
    else
      match r with
      | [] => [[c]]
      | t :: ts => (c :: t) :: ts

/-- Modelled from the spec: `extract_urls` (shared_scripts/url_extractor, not in
the snapshot) — "given plain text, produces the lazy sequence of substrings
matching a URL pattern", e.g. the spec's example text yields exactly the two
`http(s)` tokens in document order. -/
def extract_urls (s : String) : List String :=
  ((splitOnSpace s.data).filter
      (fun t => listStartsWith t "http://".data || listStartsWith t "https://".data)).map
    String.mk

example :
    extract_urls "See https://example.com/job123 for details. Also http://foo.org" =
      ["https://example.com/job123", "http://foo.org"] := by decide

/- ## Record shapes -/

/-- One cell of a posting row: the Python values that can occupy the salary /
markup / text slots are `None`, the string sentinel `'FAILURE'`, a boolean
salary flag, or a string. -/
inductive Cell where
  | null
  | failure
  | flag (b : Bool)
  | str (s : String)
deriving DecidableEq, Repr

/-- One `data_posting` row: `[id, week, url, timestamp, salary, markup, text]`.
Every row built by the script has exactly this shape (the three payload cells
are appended together on each of the three paths: success, retry exhaustion,
empty week). -/
structure Posting where
  id : Nat
  week : String
  url : String
  ts : String
  salary : Cell
  markup : Cell
  text : Cell
deriving DecidableEq, Repr

/-- One `data_url_in_message` row:
`[posting_id, id, week, posting_url, embedded_url, timestamp, salary, markup, text]`.
Rows in this phase are only ever built from a successful fetch, so the payload
fields are plainly typed — there is no sentinel variant. -/
structure EmbRecord where
  postingId : Nat
  id : Nat
  week : String
  postingUrl : String
  embUrl : String
  ts : String
  salary : Bool
  markup : String
  text : String
deriving DecidableEq, Repr

/- ## CompilationDiffer (lines 241–419) -/

/-- A fetched compilation page: its inside-page week label (the second `h2`,
stripped) and its anchors in document order. -/
structure CompilationPage where
  week : String
  anchors : List Anchor
deriving DecidableEq, Repr

/-- What the archive index shows on a given run: the labels of
`li_elements_text[1]` and `li_elements_text[2]` and the pages those two
entries lead to. -/
structure World where
  prevToLatestLabel : String
  prevToPrevLabel : String
  prevToLatestPage : CompilationPage
  prevToPrevPage : CompilationPage
deriving DecidableEq, Repr

/-- The `missing_compilation` pair built for one fetched page: inside-page
week label and the qualifying posting URLs. -/
def compData (p : CompilationPage) : String × List String :=
  (p.week, postingUrls p.anchors)

/-- `missing_compilations_data` (lines 305–403): the previous-to-previous
block runs first, then the previous-to-latest block; each fires when its
index label differs from `last_compilation_collected`. -/
def missingData (w : World) (lastCollected : String) : List (String × List String) :=
  (if w.prevToPrevLabel ≠ lastCollected then [compData w.prevToPrevPage] else []) ++
    (if w.prevToLatestLabel ≠ lastCollected then [compData w.prevToLatestPage] else [])

/-- The no-op gate of lines 289–291 followed by the two compilation blocks:
`none` models `sys.exit()` (clean termination before any compilation fetch). -/
def runDiff (w : World) (lastCollected secondToLastCollected : String) :
    Option (List (String × List String)) :=
  if w.prevToLatestLabel = lastCollected ∧ w.prevToPrevLabel = secondToLastCollected then
    Option.none
  else some (missingData w lastCollected)

/- ## PostingScraper (lines 421–614) -/

/-- Resolution of the whole per-URL retry loop (lines 464–603) for one
posting URL: either some attempt eventually succeeded with the three payload
values (via either tier), or all `ntries` attempts failed. -/
inductive UrlResult where
  | ok (salary : Bool) (markup : String) (text : String)
  | exhausted
deriving DecidableEq, Repr

/-- The rows appended to `data_compilation` for one posting URL, given the
current list length `len`: on success one row (line 606); on retry exhaustion
the same row object is appended twice — once inside the final `except` branch
(line 602) and once by the unconditional post-loop append (line 606).
The id is `n_compilations + len(data_compilation) + 1` (line 450), fixed
before the retry loop runs. -/
def urlBlock (nComp len : Nat) (week url now : String) : UrlResult → List Posting
  | UrlResult.ok s m t => [⟨nComp + len + 1, week, url, now, Cell.flag s, Cell.str m, Cell.str t⟩]
  | UrlResult.exhausted =>
    [⟨nComp + len + 1, week, url, now, Cell.failure, Cell.failure, Cell.failure⟩,
     ⟨nComp + len + 1, week, url, now, Cell.failure, Cell.failure, Cell.failure⟩]

/-- The `for url in urls` loop (lines 443–607): threads `data_compilation`
(`acc`) and the loop variable `url` (`lu`), which Python leaves bound after
the loop. -/
def weekLoop (nComp : Nat) (now : String) (res : String → UrlResult) (week : String) :
    List String → List Posting → Option String → List Posting × Option String
  | [], acc, lu => (acc, lu)
  | u :: rest, acc, _ =>
    weekLoop nComp now res week rest (acc ++ urlBlock nComp acc.length week u now (res u))
      (some u)

/-- The only unguarded fault in the posting phase: reading the never-bound
`url` name in the empty-week branch (line 614). -/
inductive RunErr where
  | nameError
deriving DecidableEq, Repr

/-- The `for missing_compilation in missing_compilations_data` loop
(lines 427–614).  A week with URLs runs the per-URL loop; a week with no URLs
appends exactly one null-payload row whose url field reads the stale `url`
variable — a `NameError` when no posting URL was ever bound in this run. -/
def compLoop (nComp : Nat) (now : String) (res : String → UrlResult) :
    List (String × List String) → List Posting → Option String →
      Except RunErr (List Posting)
  | [], acc, _ => Except.ok acc
  | (week, urls) :: rest, acc, lu =>
    if 0 < urls.length then
      let st := weekLoop nComp now res week urls acc lu
      compLoop nComp now res rest st.1 st.2
    else
      match lu with
      | Option.none => Except.error RunErr.nameError
      | some u =>
        compLoop nComp now res rest
          (acc ++ [⟨nComp + acc.length + 1, week, u, now, Cell.null, Cell.null, Cell.null⟩]) lu

/-- The whole posting phase: `data_compilation = []` and no `url` bound yet. -/
def runPostings (nComp : Nat) (now : String) (res : String → UrlResult)
    (weeks : List (String × List String)) : Except RunErr (List Posting) :=
  compLoop nComp now res weeks [] Option.none

/- ## The per-attempt tier fallback (lines 467–579) -/

/-- `https://listserv.kent.edu` (line 172). -/
def url_base : String := "https://listserv.kent.edu"

/-- `soup.find('a', href=True, string=p)['href']`: the `href` of the first
anchor that has an `href` attribute and whose string satisfies `p`; `none`
models the `TypeError` raised by subscripting the `None` that `find` returns
when no anchor matches. -/
def findLink (anchors : List Anchor) (p : Option String → Bool) : Option String :=
  match anchors.find? (fun a => a.href.isSome && p a.text) with
  | Option.none => Option.none
  | some a => a.href

/-- One message tier (lines 489–530 resp. 532–575): locate the link whose
anchor string satisfies `p`, fetch `url_base + href`, extract text, classify
salary.  Any fault — link absent or fetch failure — surfaces as an error. -/
def tierFetch (fetchMsg : String → Except Unit String) (anchors : List Anchor)
    (p : Option String → Bool) : Except Unit (Bool × String × String) :=
  match findLink anchors p with
  | Option.none => Except.error ()
  | some h =>
    match fetchMsg (url_base ++ h) with
    | Except.error e => Except.error e
    | Except.ok markup =>
      let t := extract_text markup
      Except.ok (check_salary t, markup, t)

/-- Which tier produced the payload of a successful attempt. -/
inductive TierUsed where
  | plainText
  | html
deriving DecidableEq, Repr

/-- One attempt of the second re-try block (lines 467–579): fetch the posting
page; inside it, try the plain-text tier under a bare `except:` — so ANY
fault in that tier falls through to the HTML tier — and let faults of the
HTML tier itself propagate to the outer per-posting retry loop. -/
def attemptResult (page : Except Unit (List Anchor))
    (fetchMsg : String → Except Unit String) :
    Except Unit (TierUsed × Bool × String × String) :=
  match page with
  | Except.error e => Except.error e
  | Except.ok anchors =>
    match tierFetch fetchMsg anchors contains_plain_text with
    | Except.ok (s, m, t) => Except.ok (TierUsed.plainText, s, m, t)
    | Except.error _ =>
      match tierFetch fetchMsg anchors contains_html with
      | Except.ok (s, m, t) => Except.ok (TierUsed.html, s, m, t)
      | Except.error e => Except.error e

/- ## MessageUrlScraper (lines 620–691) -/

/-- `ntries = 15` (line 166). -/
def ntries : Nat := 15

/-- Modelled from the spec: the bounded-retry wrapper of §4.3 as used by
`get_selenium_response` (shared_scripts/scraper, not in the snapshot) —
run attempt `i`, on success return, on failure retry, re-raising the fault of
the final attempt. -/
def retryExecFrom (f : Nat → Except Unit String) : Nat → Nat → Except Unit String
  | _, 0 => Except.error ()
  | i, n + 1 =>
    match f i with
    | Except.ok v => Except.ok v
    | Except.error e => if n = 0 then Except.error e else retryExecFrom f (i + 1) n

/-- Modelled from the spec: `get_selenium_response` (shared_scripts/scraper,
not in the snapshot) — fetch a rendered page under the bounded-retry policy,
fatal on exhaustion (the fault propagates to the caller). -/
def get_selenium_response (f : Nat → Except Unit String) : Except Unit String :=
  retryExecFrom f 0 ntries

/-- The value `data_posting[-1]` handed to `extract_urls` (line 634): the raw
stored cell.  The sentinel is the literal string `'FAILURE'`, which matches no
URL token; on `None` the extractor yields nothing (modelled from the spec:
shared_scripts/url_extractor is not in the snapshot and §4.5 states that
null-text postings contribute zero embedded-URL records). -/
def extract_urls_cell : Cell → List String
  | Cell.str s => extract_urls s
  | Cell.failure => extract_urls "FAILURE"
  | Cell.null => []
  | Cell.flag _ => []

/-- Lines 641–690 for one embedded URL: the id is assigned from the current
output length before the fetch; a fetch fault propagates (no row appended),
otherwise the completed row is appended. -/
def embRecordFor (nUrls : Nat) (now : String) (fa : String → Nat → Except Unit String)
    (r : Posting) (u : String) (acc : List EmbRecord) : Except Unit (List EmbRecord) :=
  match get_selenium_response (fa u) with
  | Except.error e => Except.error e
  | Except.ok markup =>
    let t := extract_text markup
    Except.ok
      (acc ++ [⟨r.id, nUrls + acc.length + 1, r.week, r.url, u, now, check_salary t, markup, t⟩])

/-- The `for url_in_message in urls_in_message` loop (lines 638–690). -/
def embUrlLoop (nUrls : Nat) (now : String) (fa : String → Nat → Except Unit String)
    (r : Posting) : List String → List EmbRecord → Except Unit (List EmbRecord)
  | [], acc => Except.ok acc
  | u :: rest, acc =>
    match embRecordFor nUrls now fa r u acc with
    | Except.error e => Except.error e
    | Except.ok acc' => embUrlLoop nUrls now fa r rest acc'

/-- Lines 626–638 for one posting row: extract the embedded URLs from its
text cell and run the per-URL loop over them. -/
def embStep (nUrls : Nat) (now : String) (fa : String → Nat → Except Unit String)
    (acc : List EmbRecord) (r : Posting) : Except Unit (List EmbRecord) :=
  embUrlLoop nUrls now fa r (extract_urls_cell r.text) acc

/-- The `for data_posting in data_compilation` loop (lines 626–690). -/
def embPhase (nUrls : Nat) (now : String) (fa : String → Nat → Except Unit String) :
    List Posting → List EmbRecord → Except Unit (List EmbRecord)
  | [], acc => Except.ok acc
  | r :: rest, acc =>
    match embStep nUrls now fa acc r with
    | Except.error e => Except.error e
    | Except.ok acc' => embPhase nUrls now fa rest acc'

/- ## Whole run -/

/-- Outcome of one run of the script: clean no-op exit (lines 289–291), a
fatal unhandled fault, or the two record lists handed to storage. -/
inductive RunResult where
  | noop
  | fatal
  | done (postings : List Posting) (embedded : List EmbRecord)
deriving DecidableEq, Repr

/-- The full pipeline: differ, posting phase, embedded-URL phase. -/
def fullRun (w : World) (lastCollected secondToLastCollected : String)
    (nComp nUrls : Nat) (now : String) (res : String → UrlResult)
    (fa : String → Nat → Except Unit String) : RunResult :=
  match runDiff w lastCollected secondToLastCollected with
  | Option.none => RunResult.noop
  | some weeks =>
    match runPostings nComp now res weeks with
    | Except.error _ => RunResult.fatal
    | Except.ok postings =>
      match embPhase nUrls now fa postings [] with
      | Except.error _ => RunResult.fatal
      | Except.ok embs => RunResult.done postings embs

/-- PostingRecords emitted by a run outcome. -/
def emittedPostings : RunResult → List Posting
  | RunResult.done p _ => p
  | _ => []

/-- EmbeddedUrlRecords emitted by a run outcome. -/
def emittedEmbedded : RunResult → List EmbRecord
  | RunResult.done _ e => e
  | _ => []

example :
    (runPostings 5 "ts"
        (fun u => if u = "u1" then UrlResult.exhausted else UrlResult.ok false "m" "t")
        [("W", ["u1", "u2"])]).toOption.map (fun l => l.map Posting.id) =
      some [6, 6, 8] := by decide

/- ## Helper lemmas -/

theorem weekLoop_append (nComp : Nat) (now : String) (res : String → UrlResult)
    (week : String) (l1 l2 : List String) :
    ∀ (acc : List Posting) (lu : Option String),
      weekLoop nComp now res week (l1 ++ l2) acc lu =
        weekLoop nComp now res week l2 (weekLoop nComp now res week l1 acc lu).1
          (weekLoop nComp now res week l1 acc lu).2 := by
  induction l1 with
  | nil => intro acc lu; rfl
  | cons u rest ih =>
    intro acc lu
    simp only [List.cons_append, weekLoop]
    exact ih _ _

theorem weekLoop_extends (nComp : Nat) (now : String) (res : String → UrlResult)
    (week : String) (l : List String) :
    ∀ (acc : List Posting) (lu : Option String),
      ∃ s, (weekLoop nComp now res week l acc lu).1 = acc ++ s := by
  induction l with
  | nil => intro acc lu; exact ⟨[], by simp [weekLoop]⟩
  | cons u rest ih =>
    intro acc lu
    obtain ⟨s, hs⟩ := ih (acc ++ urlBlock nComp acc.length week u now (res u)) (some u)
    refine ⟨urlBlock nComp acc.length week u now (res u) ++ s, ?_⟩
    simp only [weekLoop]
    rw [hs, List.append_assoc]

theorem weekLoop_len_le (nComp : Nat) (now : String) (res : String → UrlResult)
    (week : String) (l : List String) (acc : List Posting) (lu : Option String) :
    acc.length ≤ (weekLoop nComp now res week l acc lu).1.length := by
  obtain ⟨s, hs⟩ := weekLoop_extends nComp now res week l acc lu
  rw [hs, List.length_append]
  exact Nat.le_add_right _ _

theorem urlBlock_id (nComp len : Nat) (week url now : String) (o : UrlResult)
    (r : Posting) (h : r ∈ urlBlock nComp len week url now o) : r.id = nComp + len + 1 := by
  cases o with
  | ok s m t => simp [urlBlock] at h; subst h; rfl
  | exhausted => simp [urlBlock] at h; subst h; rfl

theorem urlBlock_url (nComp len : Nat) (week url now : String) (o : UrlResult)
    (r : Posting) (h : r ∈ urlBlock nComp len week url now o) :
    r.url = url ∧ r.week = week := by
  cases o with
  | ok s m t => simp [urlBlock] at h; subst h; exact ⟨rfl, rfl⟩
  | exhausted => simp [urlBlock] at h; subst h; exact ⟨rfl, rfl⟩

theorem urlBlock_len_pos (nComp len : Nat) (week url now : String) (o : UrlResult) :
    0 < (urlBlock nComp len week url now o).length := by
  cases o <;> simp [urlBlock]

theorem weekLoop_mem_of_mem_acc (nComp : Nat) (now : String) (res : String → UrlResult)
    (week : String) (l : List String) (acc : List Posting) (lu : Option String)
    (r : Posting) (h : r ∈ acc) : r ∈ (weekLoop nComp now res week l acc lu).1 := by
  obtain ⟨s, hs⟩ := weekLoop_extends nComp now res week l acc lu
  rw [hs]
  exact List.mem_append_left _ h

theorem weekLoop_mem_url (nComp : Nat) (now : String) (res : String → UrlResult)
    (week : String) (l : List String) :
    ∀ (acc : List Posting) (lu : Option String) (v : String), v ∈ l →
      ∃ r ∈ (weekLoop nComp now res week l acc lu).1, r.url = v ∧ r.week = week := by
  induction l with
  | nil => intro acc lu v hv; cases hv
  | cons u rest ih =>
    intro acc lu v hv
    rcases List.mem_cons.mp hv with h | h
    · subst h
      have hr : ∃ r ∈ urlBlock nComp acc.length week v now (res v),
          r.url = v ∧ r.week = week := by
        rcases hblk : urlBlock nComp acc.length week v now (res v) with _ | ⟨r0, rest0⟩
        · exact absurd (hblk ▸ urlBlock_len_pos nComp acc.length week v now (res v))
            (by simp)
        · refine ⟨r0, by simp, ?_⟩
          exact urlBlock_url nComp acc.length week v now (res v) r0 (by rw [hblk]; simp)
      obtain ⟨r, hrmem, hru⟩ := hr
      refine ⟨r, ?_, hru⟩
      simp only [weekLoop]
      exact weekLoop_mem_of_mem_acc nComp now res week rest _ (some v) r
        (List.mem_append_right _ hrmem)
    · obtain ⟨r, hrmem, hru⟩ :=
        ih (acc ++ urlBlock nComp acc.length week u now (res u)) (some u) v h
      refine ⟨r, ?_, hru⟩
      simp only [weekLoop]
      exact hrmem

theorem compLoop_cons_pos (nComp : Nat) (now : String) (res : String → UrlResult)
    (week : String) (urls : List String) (rest : List (String × List String))
    (acc : List Posting) (lu : Option String) (hlen : 0 < urls.length) :
    compLoop nComp now res ((week, urls) :: rest) acc lu =
      compLoop nComp now res rest (weekLoop nComp now res week urls acc lu).1
        (weekLoop nComp now res week urls acc lu).2 := by
  simp only [compLoop]
  rw [if_pos hlen]

theorem weekLoop_snd (nComp : Nat) (now : String) (res : String → UrlResult)
    (week : String) (l : List String) :
    ∀ (acc : List Posting) (lu : Option String),
      (weekLoop nComp now res week l acc lu).2 = (l.getLast?).elim lu some := by
  induction l with
  | nil => intro acc lu; simp [weekLoop]
  | cons u rest ih =>
    intro acc lu
    simp only [weekLoop]
    rw [ih]
    cases rest with
    | nil => simp
    | cons v t =>
      rcases hx : (v :: t).getLast? with _ | x
      · exact absurd (List.getLast?_eq_none_iff.mp hx) (by simp)
      · simp [List.getLast?_cons_cons, hx]

theorem retryExecFrom_all_err (f : Nat → Except Unit String) :
    ∀ (n i : Nat), (∀ k, k < n → f (i + k) = Except.error ()) →
      retryExecFrom f i n = Except.error () := by
  intro n
  induction n with
  | zero => intro i _; rfl
  | succ m ih =>
    intro i h
    have h0 : f i = Except.error () := by
      have := h 0 (Nat.succ_pos m)
      simpa using this
    simp only [retryExecFrom, h0]
    cases m with
    | zero => simp
    | succ k =>
      rw [if_neg (Nat.succ_ne_zero k)]
      refine ih (i + 1) (fun j hj => ?_)
      have hidx : i + 1 + j = i + (j + 1) := by omega
      rw [hidx]
      exact h (j + 1) (Nat.succ_lt_succ hj)

theorem embUrlLoop_err (nUrls : Nat) (now : String) (fa : String → Nat → Except Unit String)
    (r : Posting) (l : List String) :
    ∀ acc, (∃ u ∈ l, get_selenium_response (fa u) = Except.error ()) →
      embUrlLoop nUrls now fa r l acc = Except.error () := by
  induction l with
  | nil => intro acc h; simp at h
  | cons u rest ih =>
    intro acc h
    rcases hg : get_selenium_response (fa u) with e | m
    · cases e
      simp only [embUrlLoop, embRecordFor, hg]
    · rcases h with ⟨v, hv, hfail⟩
      rcases List.mem_cons.mp hv with rfl | hv'
      · rw [hg] at hfail; cases hfail
      · simp only [embUrlLoop, embRecordFor, hg]
        exact ih _ ⟨v, hv', hfail⟩

theorem embUrlLoop_ok_fetch (nUrls : Nat) (now : String)
    (fa : String → Nat → Except Unit String) (r : Posting) (l : List String) :
    ∀ acc out, embUrlLoop nUrls now fa r l acc = Except.ok out →
      (∀ e ∈ acc, get_selenium_response (fa e.embUrl) = Except.ok e.markup) →
      ∀ e ∈ out, get_selenium_response (fa e.embUrl) = Except.ok e.markup := by
  induction l with
  | nil =>
    intro acc out hok hacc
    simp only [embUrlLoop] at hok
    injection hok with h
    subst h
    exact hacc
  | cons u rest ih =>
    intro acc out hok hacc
    rcases hg : get_selenium_response (fa u) with e | m
    · cases e
      simp only [embUrlLoop, embRecordFor, hg] at hok
      cases hok
    · simp only [embUrlLoop, embRecordFor, hg] at hok
      refine ih _ out hok ?_
      intro e he
      rcases List.mem_append.mp he with he' | he'
      · exact hacc e he'
      · simp at he'
        subst he'
        exact hg

theorem embPhase_err (nUrls : Nat) (now : String) (fa : String → Nat → Except Unit String)
    (recs : List Posting) :
    ∀ acc, (∃ r ∈ recs, ∃ u ∈ extract_urls_cell r.text,
        get_selenium_response (fa u) = Except.error ()) →
      embPhase nUrls now fa recs acc = Except.error () := by
  induction recs with
  | nil => intro acc h; simp at h
  | cons r0 rest ih =>
    intro acc h
    rcases hs : embStep nUrls now fa acc r0 with e | acc'
    · cases e
      simp only [embPhase, hs]
    · rcases h with ⟨r, hr, u, hu, hfail⟩
      rcases List.mem_cons.mp hr with rfl | hr'
      · have herr := embUrlLoop_err nUrls now fa r (extract_urls_cell r.text) acc
          ⟨u, hu, hfail⟩
        have hcontr : Except.error () = Except.ok acc' := by
          rw [← herr]; exact hs
        cases hcontr
      · simp only [embPhase, hs]
        exact ih _ ⟨r, hr', u, hu, hfail⟩

theorem embPhase_ok_fetch (nUrls : Nat) (now : String)
    (fa : String → Nat → Except Unit String) (recs : List Posting) :
    ∀ acc out, embPhase nUrls now fa recs acc = Except.ok out →
      (∀ e ∈ acc, get_selenium_response (fa e.embUrl) = Except.ok e.markup) →
      ∀ e ∈ out, get_selenium_response (fa e.embUrl) = Except.ok e.markup := by
  induction recs with
  | nil =>
    intro acc out hok hacc
    simp only [embPhase] at hok
    injection hok with h
    subst h
    exact hacc
  | cons r0 rest ih =>
    intro acc out hok hacc
    rcases hs : embStep nUrls now fa acc r0 with e | acc'
    · simp only [embPhase, hs] at hok
      cases hok
    · simp only [embPhase, hs] at hok
      exact ih _ out hok
        (embUrlLoop_ok_fetch nUrls now fa r0 (extract_urls_cell r0.text) acc acc' hs hacc)

/- ## Claim theorems -/

/-- C1 — the claim that emitted PostingRecord ids are contiguous and unique
fails on the code: when a posting's retries exhaust, the FAILURE row is
appended once inside the final `except` branch (line 602) and a second time
by the unconditional post-loop append (line 606, whose log text says "after
success"), so the same id appears twice and the following id skips a value.
Evaluated here at a run over one week `["u1", "u2"]` with prior max id 5
where `u1` exhausts: the emitted id sequence is `[6, 6, 8]`. -/
theorem c1_retry_exhaustion_duplicates_ids :
    (runPostings 5 "ts"
          (fun u => if u = "u1" then UrlResult.exhausted else UrlResult.ok false "m" "t")
          [("W", ["u1", "u2"])]).toOption.map (fun l => l.map Posting.id) =
        some [6, 6, 8]
    ∧ ¬ ([6, 6, 8] : List Nat).Nodup ∧ 7 ∉ ([6, 6, 8] : List Nat) := by
  exact ⟨by decide, by decide, by decide⟩

/-- C4 counterexample — the code filters hrefs with the substring test
`'https' in a['href']`, not by scheme: an anchor whose text matches the
posting pattern but whose href has scheme `http` is still collected whenever
the characters `https` occur anywhere in the href, contradicting the claim
that non-https-scheme hrefs are excluded. -/
theorem c4_counterexample_substring_https :
    postingUrls
        [⟨some "Lecturer Position", some "http://insecure.example/?go=https://x"⟩] =
      ["http://insecure.example/?go=https://x"]
    ∧ listStartsWith "http://insecure.example/?go=https://x".data "https:".data = false := by
  exact ⟨by decide, by decide⟩

/-- C4 amended — an href is collected as a posting URL iff its anchor has
that href, the anchor string matches the posting-intent pattern
(case-insensitive substring on faculty / professor / position / instructor,
empty and absent strings excluded), and the href contains `https` as a
substring (anywhere — not necessarily as the scheme). -/
theorem c4_filter_amended (anchors : List Anchor) (h : String) :
    h ∈ postingUrls anchors ↔
      ∃ a ∈ anchors, a.href = some h ∧ contains_posting a.text = true ∧
        containsSub h "https" = true := by
  simp only [postingUrls, List.mem_filter, List.mem_filterMap, Bool.and_eq_true]
  constructor
  · rintro ⟨⟨a, ⟨ha, _, hp⟩, hhref⟩, hq⟩
    exact ⟨a, ha, hhref, hp, hq⟩
  · rintro ⟨a, ha, hhref, hp, hq⟩
    exact ⟨⟨a, ⟨ha, by rw [hhref]; rfl, hp⟩, hhref⟩, hq⟩

/-- C5 — if the archive's previous-to-latest label equals the ledger's last
label and the previous-to-previous-to-latest label equals the second-to-last
label, the run terminates as a clean no-op (the `sys.exit()` of line 291),
emitting zero PostingRecords and zero EmbeddedUrlRecords, whatever the
compilation pages contain and before any compilation is fetched. -/
theorem c5_noop_idempotence (w : World) (lastC secondC : String) (nComp nUrls : Nat)
    (now : String) (res : String → UrlResult) (fa : String → Nat → Except Unit String)
    (h1 : w.prevToLatestLabel = lastC) (h2 : w.prevToPrevLabel = secondC) :
    fullRun w lastC secondC nComp nUrls now res fa = RunResult.noop
    ∧ emittedPostings (fullRun w lastC secondC nComp nUrls now res fa) = []
    ∧ emittedEmbedded (fullRun w lastC secondC nComp nUrls now res fa) = [] := by
  have hd : runDiff w lastC secondC = Option.none := by
    simp [runDiff, h1, h2]
  have hf : fullRun w lastC secondC nComp nUrls now res fa = RunResult.noop := by
    simp [fullRun, hd]
  exact ⟨hf, by rw [hf]; rfl, by rw [hf]; rfl⟩

theorem c5_noop_witness :
    fullRun ⟨"A", "B", ⟨"wa", []⟩, ⟨"wb", []⟩⟩ "A" "B" 0 0 "t"
        (fun _ => UrlResult.exhausted) (fun _ _ => Except.error ()) = RunResult.noop :=
  (c5_noop_idempotence ⟨"A", "B", ⟨"wa", []⟩, ⟨"wb", []⟩⟩ "A" "B" 0 0 "t"
      (fun _ => UrlResult.exhausted) (fun _ _ => Except.error ()) rfl rfl).1

/-- C8 — a week processed with an empty posting-URL list appends exactly one
PostingRecord whose salary / markup / text cells are all null and whose url
field is the stale `url` loop variable (the most recently bound posting URL),
and the run then continues with the remaining weeks; the second conjunct
shows the threaded variable is exactly the last URL iterated over in the most
recent nonempty week (unchanged by weeks that bind none). -/
theorem c8_empty_week_marking (nComp : Nat) (now week u : String)
    (res : String → UrlResult) (rest : List (String × List String))
    (acc : List Posting) (urls : List String) (lu : Option String) :
    compLoop nComp now res ((week, []) :: rest) acc (some u) =
      compLoop nComp now res rest
        (acc ++ [⟨nComp + acc.length + 1, week, u, now, Cell.null, Cell.null, Cell.null⟩])
        (some u)
    ∧ (weekLoop nComp now res week urls acc lu).2 = (urls.getLast?).elim lu some :=
  ⟨rfl, weekLoop_snd nComp now res week urls acc lu⟩

/-- C10 — when the first week the posting phase processes has zero qualifying
posting URLs, the empty-week branch reads the never-bound name `url`
(line 614): the phase raises a `NameError` instead of emitting the empty-week
record, and the whole run is fatal. -/
theorem c10_first_week_empty_name_error (w : World) (lastC secondC : String)
    (nComp nUrls : Nat) (now : String) (res : String → UrlResult)
    (fa : String → Nat → Except Unit String) (wk : String)
    (rest : List (String × List String))
    (h : runDiff w lastC secondC = some ((wk, []) :: rest)) :
    runPostings nComp now res ((wk, []) :: rest) = Except.error RunErr.nameError
    ∧ fullRun w lastC secondC nComp nUrls now res fa = RunResult.fatal := by
  have hr : runPostings nComp now res ((wk, []) :: rest) =
      Except.error RunErr.nameError := rfl
  refine ⟨hr, ?_⟩
  simp [fullRun, h, hr]

/-- C2 — when a posting URL's fetch exhausts all retries, the week loop
appends a record whose salary, markup and text cells all hold the FAILURE
sentinel (twice, per the source's double append), raises nothing, and keeps
processing: every later URL of the same week still yields a record, and the
compilation loop proceeds to the remaining weeks. -/
theorem c2_failure_containment (nComp : Nat) (now week u : String)
    (res : String → UrlResult) (xs zs : List String) (acc : List Posting)
    (lu : Option String) (accX : List Posting) (luX : Option String) (f : Posting)
    (hres : res u = UrlResult.exhausted)
    (hX : weekLoop nComp now res week xs acc lu = (accX, luX))
    (hf : f = ⟨nComp + accX.length + 1, week, u, now,
        Cell.failure, Cell.failure, Cell.failure⟩) :
    weekLoop nComp now res week (xs ++ u :: zs) acc lu =
      weekLoop nComp now res week zs (accX ++ [f, f]) (some u)
    ∧ f.salary = Cell.failure ∧ f.markup = Cell.failure ∧ f.text = Cell.failure
    ∧ f ∈ (weekLoop nComp now res week (xs ++ u :: zs) acc lu).1
    ∧ (∀ v ∈ zs, ∃ r ∈ (weekLoop nComp now res week (xs ++ u :: zs) acc lu).1,
        r.url = v ∧ r.week = week)
    ∧ ∀ rest, compLoop nComp now res ((week, xs ++ u :: zs) :: rest) acc lu =
        compLoop nComp now res rest
          (weekLoop nComp now res week (xs ++ u :: zs) acc lu).1
          (weekLoop nComp now res week (xs ++ u :: zs) acc lu).2 := by
  have h1 : (weekLoop nComp now res week xs acc lu).1 = accX := by rw [hX]
  have h2 : (weekLoop nComp now res week xs acc lu).2 = luX := by rw [hX]
  have hblk : urlBlock nComp accX.length week u now (res u) = [f, f] := by
    rw [hres, hf]; rfl
  have hmain : weekLoop nComp now res week (xs ++ u :: zs) acc lu =
      weekLoop nComp now res week zs (accX ++ [f, f]) (some u) := by
    rw [weekLoop_append, h1, h2]
    simp only [weekLoop]
    rw [hblk]
  refine ⟨hmain, by rw [hf], by rw [hf], by rw [hf], ?_, ?_, ?_⟩
  · rw [hmain]
    exact weekLoop_mem_of_mem_acc nComp now res week zs _ (some u) f
      (List.mem_append_right _ (by simp))
  · intro v hv
    rw [hmain]
    exact weekLoop_mem_url nComp now res week zs _ (some u) v hv
  · intro rest
    exact compLoop_cons_pos nComp now res week (xs ++ u :: zs) rest acc lu (by simp)

theorem c2_witness :
    (⟨1, "W", "u1", "t", Cell.failure, Cell.failure, Cell.failure⟩ : Posting) ∈
      (weekLoop 0 "t"
          (fun v => if v = "u1" then UrlResult.exhausted else UrlResult.ok true "m" "x")
          "W" ["u1", "u2"] [] Option.none).1 :=
  (c2_failure_containment 0 "t" "W" "u1"
      (fun v => if v = "u1" then UrlResult.exhausted else UrlResult.ok true "m" "x")
      [] ["u2"] [] Option.none [] Option.none
      ⟨1, "W", "u1", "t", Cell.failure, Cell.failure, Cell.failure⟩
      (by decide) rfl rfl).2.2.2.2.1

/-- C6 — output order: when both live compilations are new, the
previous-to-previous-to-latest week's pair is placed (and hence processed)
before the previous-to-latest week's pair; and within one week, for posting
URL `a` occurring before posting URL `b` in document order, every record
emitted for `a` has a strictly smaller id than every record emitted for `b`
(the accumulated list only grows, and each URL's id is one more than the
accumulated length at its turn). -/
theorem c6_order_preservation (w : World) (lastC : String)
    (hpp : w.prevToPrevLabel ≠ lastC) (hpl : w.prevToLatestLabel ≠ lastC)
    (nComp : Nat) (now week a b : String) (res : String → UrlResult)
    (xs ys zs : List String) (acc : List Posting) (lu : Option String)
    (accA accB : List Posting) (luA luB : Option String)
    (hA : weekLoop nComp now res week xs acc lu = (accA, luA))
    (hB : weekLoop nComp now res week (xs ++ a :: ys) acc lu = (accB, luB)) :
    missingData w lastC = [compData w.prevToPrevPage, compData w.prevToLatestPage]
    ∧ weekLoop nComp now res week (xs ++ a :: (ys ++ b :: zs)) acc lu =
        weekLoop nComp now res week zs
          (accB ++ urlBlock nComp accB.length week b now (res b)) (some b)
    ∧ (∃ m, accB = (accA ++ urlBlock nComp accA.length week a now (res a)) ++ m)
    ∧ ∀ r ∈ urlBlock nComp accA.length week a now (res a),
        ∀ s ∈ urlBlock nComp accB.length week b now (res b), r.id < s.id := by
  have hA1 : (weekLoop nComp now res week xs acc lu).1 = accA := by rw [hA]
  have hA2 : (weekLoop nComp now res week xs acc lu).2 = luA := by rw [hA]
  have hmid : weekLoop nComp now res week (xs ++ a :: ys) acc lu =
      weekLoop nComp now res week ys
        (accA ++ urlBlock nComp accA.length week a now (res a)) (some a) := by
    rw [weekLoop_append, hA1, hA2]
    simp only [weekLoop]
  have hBeq : weekLoop nComp now res week ys
      (accA ++ urlBlock nComp accA.length week a now (res a)) (some a) = (accB, luB) := by
    rw [← hmid, hB]
  have hext : ∃ m, accB = (accA ++ urlBlock nComp accA.length week a now (res a)) ++ m := by
    obtain ⟨m, hm⟩ := weekLoop_extends nComp now res week ys
      (accA ++ urlBlock nComp accA.length week a now (res a)) (some a)
    exact ⟨m, by rw [← hm, hBeq]⟩
  have hlen : accA.length < accB.length := by
    obtain ⟨m, hm⟩ := hext
    have hpos := urlBlock_len_pos nComp accA.length week a now (res a)
    rw [hm]
    simp only [List.length_append]
    omega
  refine ⟨by simp [missingData, hpp, hpl], ?_, hext, ?_⟩
  · have hsplit : xs ++ a :: (ys ++ b :: zs) = (xs ++ a :: ys) ++ b :: zs := by
      simp
    rw [hsplit, weekLoop_append, hB]
    simp only [weekLoop]
  · intro r hr s hs
    rw [urlBlock_id nComp accA.length week a now (res a) r hr,
      urlBlock_id nComp accB.length week b now (res b) s hs]
    omega

theorem c6_witness :
    (⟨1, "W", "a", "t", Cell.flag true, Cell.str "m", Cell.str "x"⟩ : Posting).id <
      (⟨2, "W", "b", "t", Cell.flag true, Cell.str "m", Cell.str "x"⟩ : Posting).id :=
  (c6_order_preservation ⟨"C", "D", ⟨"wpl", []⟩, ⟨"wpp", []⟩⟩ "A" (by decide) (by decide)
      0 "t" "W" "a" "b" (fun _ => UrlResult.ok true "m" "x") [] [] [] [] Option.none
      [] [⟨1, "W", "a", "t", Cell.flag true, Cell.str "m", Cell.str "x"⟩]
      Option.none (some "a") rfl (by decide)).2.2.2
    ⟨1, "W", "a", "t", Cell.flag true, Cell.str "m", Cell.str "x"⟩ (by decide)
    ⟨2, "W", "b", "t", Cell.flag true, Cell.str "m", Cell.str "x"⟩ (by decide)

/-- C3 counterexample — the plain-text tier runs under a bare `except:`
(line 532), so the HTML-tier fallback is taken on ANY fault inside the
plain-text tier, not only when the plain-text link is absent: here the
plain-text link exists (first conjunct) yet a fetch fault on the plain-text
message page sends the attempt to the HTML tier, which succeeds (second
conjunct) — contradicting the claim that such a fault is handled by the
outer per-posting retry loop. -/
theorem c3_bare_except_counterexample :
    findLink
        [⟨some "text/plain version", some "/plain1"⟩,
         ⟨some "text/html version", some "/html1"⟩] contains_plain_text = some "/plain1"
    ∧ attemptResult
        (Except.ok
          [⟨some "text/plain version", some "/plain1"⟩,
           ⟨some "text/html version", some "/html1"⟩])
        (fun s => if s = "https://listserv.kent.edu/plain1" then Except.error ()
          else Except.ok "<p>body</p>") =
      Except.ok (TierUsed.html, false, "<p>body</p>", "body") := by
  exact ⟨by decide, by decide⟩

/-- C3 amended — the HTML-tier fallback is taken exactly when the plain-text
tier faults for any reason (its link absent, or a fault while fetching or
processing the plain-text message) and the HTML tier itself succeeds; when
both tiers fault the attempt's fault propagates to the outer per-posting
retry loop; a missing plain-text link is one way the plain-text tier faults;
and a successful plain-text tier is used as is. -/
theorem c3_tier_fallback_amended (anchors : List Anchor)
    (fetchMsg : String → Except Unit String) :
    (∀ s m t,
      attemptResult (Except.ok anchors) fetchMsg = Except.ok (TierUsed.html, s, m, t) ↔
        tierFetch fetchMsg anchors contains_plain_text = Except.error () ∧
          tierFetch fetchMsg anchors contains_html = Except.ok (s, m, t))
    ∧ (tierFetch fetchMsg anchors contains_plain_text = Except.error () →
        tierFetch fetchMsg anchors contains_html = Except.error () →
        attemptResult (Except.ok anchors) fetchMsg = Except.error ())
    ∧ (findLink anchors contains_plain_text = Option.none →
        tierFetch fetchMsg anchors contains_plain_text = Except.error ())
    ∧ ∀ s m t,
        attemptResult (Except.ok anchors) fetchMsg = Except.ok (TierUsed.plainText, s, m, t) ↔
          tierFetch fetchMsg anchors contains_plain_text = Except.ok (s, m, t) := by
  refine ⟨?_, ?_, ?_, ?_⟩
  · intro s m t
    rcases hp : tierFetch fetchMsg anchors contains_plain_text with e | ⟨s0, m0, t0⟩
    · cases e
      rcases hh : tierFetch fetchMsg anchors contains_html with e' | ⟨s1, m1, t1⟩
      · cases e'
        simp [attemptResult, hp, hh]
      · simp [attemptResult, hp, hh, and_comm]
    · simp [attemptResult, hp]
  · intro h1 h2
    simp [attemptResult, h1, h2]
  · intro h
    simp [tierFetch, h]
  · intro s m t
    rcases hp : tierFetch fetchMsg anchors contains_plain_text with e | ⟨s0, m0, t0⟩
    · cases e
      rcases hh : tierFetch fetchMsg anchors contains_html with e' | ⟨s1, m1, t1⟩
      · cases e'
        simp [attemptResult, hp, hh]
      · simp [attemptResult, hp, hh]
    · simp [attemptResult, hp]

theorem c3_amended_witness :
    tierFetch
        (fun s => if s = "https://listserv.kent.edu/plain1" then Except.error ()
          else Except.ok "<p>body</p>")
        [⟨some "text/plain version", some "/plain1"⟩,
         ⟨some "text/html version", some "/html1"⟩] contains_plain_text = Except.error ()
    ∧ attemptResult
        (Except.ok
          [⟨some "text/plain version", some "/plain1"⟩,
           ⟨some "text/html version", some "/html1"⟩])
        (fun s => if s = "https://listserv.kent.edu/plain1" then Except.error ()
          else Except.ok "<p>body</p>") =
      Except.ok (TierUsed.html, false, "<p>body</p>", "body") :=
  ⟨by decide,
    ((c3_tier_fallback_amended
        [⟨some "text/plain version", some "/plain1"⟩,
         ⟨some "text/html version", some "/html1"⟩]
        (fun s => if s = "https://listserv.kent.edu/plain1" then Except.error ()
          else Except.ok "<p>body</p>")).1 false "<p>body</p>" "body").mpr
      ⟨by decide, by decide⟩⟩

/-- C7 — every embedded-URL fetch goes through the bounded-retry wrapper
(`get_selenium_response`, `ntries` attempts; second conjunct: all attempts
failing means the wrapper re-raises), and an exhausted embedded-URL fetch is
fatal to the phase: the fault propagates (first conjunct) instead of
producing a FAILURE-sentinel record — indeed every record the phase does
emit carries the markup of a successful fetch of its embedded URL (third
conjunct); no sentinel fallback exists in this phase. -/
theorem c7_embedded_exhaustion_fatal (nUrls : Nat) (now : String)
    (fa : String → Nat → Except Unit String) (recs : List Posting)
    (acc : List EmbRecord) :
    ((∃ r ∈ recs, ∃ u ∈ extract_urls_cell r.text,
        get_selenium_response (fa u) = Except.error ()) →
      embPhase nUrls now fa recs acc = Except.error ())
    ∧ (∀ u, (∀ k, k < ntries → fa u k = Except.error ()) →
        get_selenium_response (fa u) = Except.error ())
    ∧ ∀ out, embPhase nUrls now fa recs acc = Except.ok out →
        (∀ e ∈ acc, get_selenium_response (fa e.embUrl) = Except.ok e.markup) →
        ∀ e ∈ out, get_selenium_response (fa e.embUrl) = Except.ok e.markup := by
  refine ⟨embPhase_err nUrls now fa recs acc, ?_,
    embPhase_ok_fetch nUrls now fa recs acc⟩
  intro u h
  exact retryExecFrom_all_err (fa u) ntries 0 (fun k hk => by simpa using h k hk)

theorem c7_witness :
    embPhase 0 "t" (fun _ _ => Except.error ())
        [⟨1, "W", "p", "t", Cell.flag true, Cell.str "m", Cell.str "go https://x.org now"⟩]
        [] = Except.error () :=
  (c7_embedded_exhaustion_fatal 0 "t" (fun _ _ => Except.error ())
      [⟨1, "W", "p", "t", Cell.flag true, Cell.str "m", Cell.str "go https://x.org now"⟩]
      []).1
    ⟨⟨1, "W", "p", "t", Cell.flag true, Cell.str "m", Cell.str "go https://x.org now"⟩,
      by decide, "https://x.org", by decide, rfl⟩

/-- C9 — a posting row whose text cell is null or the FAILURE sentinel yields
no embedded URLs (`extract_urls` finds no URL token in the literal string
`FAILURE`, and a null text yields none), so its step of the embedded-URL
phase leaves the output list unchanged: it contributes zero
EmbeddedUrlRecords. -/
theorem c9_null_failure_no_embedded (nUrls : Nat) (now : String)
    (fa : String → Nat → Except Unit String) (r : Posting) (acc : List EmbRecord)
    (h : r.text = Cell.null ∨ r.text = Cell.failure) :
    extract_urls_cell r.text = [] ∧ embStep nUrls now fa acc r = Except.ok acc := by
  have he : extract_urls_cell r.text = [] := by
    rcases h with h | h
    · rw [h]; rfl
    · rw [h]; decide
  refine ⟨he, ?_⟩
  show embUrlLoop nUrls now fa r (extract_urls_cell r.text) acc = Except.ok acc
  rw [he]
  rfl

theorem c9_witness :
    embStep 0 "t" (fun _ _ => Except.error ()) []
        ⟨1, "W", "u", "t", Cell.failure, Cell.failure, Cell.failure⟩ = Except.ok [] :=
  (c9_null_failure_no_embedded 0 "t" (fun _ _ => Except.error ())
      ⟨1, "W", "u", "t", Cell.failure, Cell.failure, Cell.failure⟩ [] (Or.inr rfl)).2

theorem c10_witness :
    runPostings 3 "t" (fun _ => UrlResult.exhausted) [("wpp", []), ("wpl", [])] =
      Except.error RunErr.nameError :=
  (c10_first_week_empty_name_error ⟨"C", "D", ⟨"wpl", []⟩, ⟨"wpp", []⟩⟩ "A" "B" 3 0 "t"
      (fun _ => UrlResult.exhausted) (fun _ _ => Except.error ()) "wpp" [("wpl", [])]
      (by decide)).1
